import Mathlib

/-!
# The exported ESLint configuration of `.eslintrc.js`

The repository consists of one file, `.eslintrc.js`, whose only statement is
`module.exports = { ... }`: an object literal made of booleans, strings, arrays and
nested object literals.  The literal is embedded as a value of `JsValue`, key order and
all, and the statements below are about that value.
-/

set_option autoImplicit false

namespace EslintRc

/-- The JavaScript values that occur in the object literal of `.eslintrc.js`. An object
literal is kept as the ordered list of its `key: value` properties. -/
inductive JsValue where
  | bool (b : Bool)
  | str (s : String)
  | arr (items : List JsValue)
  | obj (props : List (String × JsValue))

namespace JsValue

/-- The property names of an object literal as written, in source order; a value that is not
an object has none. -/
def keys : JsValue → List String
  | obj props => props.map Prod.fst
  | _ => []

/-- Property read `value[key]`: when an object literal repeats a key the last occurrence wins;
`none` stands for `undefined`. -/
def get? : JsValue → String → Option JsValue
  | obj props, key => props.reverse.lookup key
  | _, _ => none

/-- Whether the object literal has the property `key`. -/
def has (v : JsValue) (key : String) : Bool :=
  (v.get? key).isSome

/-- The string held by a string value. -/
def asString? : JsValue → Option String
  | str s => some s
  | _ => none

/-- The boolean held by a boolean value. -/
def asBool? : JsValue → Option Bool
  | bool b => some b
  | _ => none

/-- The elements of an array value. -/
def asArray? : JsValue → Option (List JsValue)
  | arr items => some items
  | _ => none

/-- The properties of an object value. -/
def asObject? : JsValue → Option (List (String × JsValue))
  | obj props => some props
  | _ => none

/-- An array all of whose elements are strings, as the list of those strings. -/
def asStrings? (v : JsValue) : Option (List String) :=
  v.asArray?.bind fun items => items.mapM asString?

/-- An object all of whose property values are strings, as the list of `(name, string)`. -/
def asStringMap? (v : JsValue) : Option (List (String × String)) :=
  v.asObject?.bind fun props => props.mapM fun kv => kv.2.asString?.map fun s => (kv.1, s)

end JsValue

open JsValue

/-- The first override record of `.eslintrc.js` (lines 7-12). -/
def override0 : JsValue :=
  obj [
    ("files", arr [str ".eslintrc.js"]),
    ("env", obj [
      ("node", bool true)
    ])
  ]

/-- The second override record of `.eslintrc.js` (lines 13-23). -/
def override1 : JsValue :=
  obj [
    ("files", arr [str "*.ts"]),
    ("parser", str "@typescript-eslint/parser"),
    ("extends", arr [str "plugin:@typescript-eslint/recommended"]),
    ("rules", obj [
      ("@typescript-eslint/no-unused-vars", str "off"),
      ("@typescript-eslint/no-empty-function", str "off"),
      ("@typescript-eslint/ban-types", str "off"),
      ("@typescript-eslint/no-explicit-any", str "off")
    ])
  ]

/-- The object assigned to `module.exports` in `.eslintrc.js` (lines 3-25). -/
def module_exports : JsValue :=
  obj [
    ("root", bool true),
    ("extends", arr [str "eslint:recommended", str "plugin:markdown/recommended"]),
    ("overrides", arr [override0, override1])
  ]

/-- The override records of a configuration: the elements of its `overrides` array. -/
def overridesOf (config : JsValue) : List JsValue :=
  ((config.get? "overrides").bind asArray?).getD []


/-!
## Override matching

Which files an override record applies to is decided by the linting tool, not by this
repository.  The definitions of this section model that decision for the patterns the
configuration uses: the tool hands each `files` pattern to its glob matcher with the options
that let `*` match dot files and that compare a pattern without `/` with the base name of the
path, and a record applies to a file when one of its patterns matches the path of the file
relative to the directory of the configuration file.
-/

/-- Modelled from the spec: the matcher behind "`overrides[].files`: glob patterns selecting which
files an override block applies to" is the external linting tool's and is absent from the
repository. A pattern part is read as a sequence of tokens: a literal character, or `*`, which
stands for any run of characters other than `/`. -/
inductive GlobTok where
  | lit (c : Char)
  | star
  deriving DecidableEq

/-- Modelled from the spec: a parsed pattern part of the absent matcher. A part without `*` is
kept as a plain string and compared for equality, a part with `*` becomes a regular
expression, kept as its token list. -/
inductive Part where
  | literal (s : List Char)
  | regexp (toks : List GlobTok)
  deriving DecidableEq

/-- Modelled from the spec: the characters the model reads as themselves in a pattern. Every
other character except `*` (`/`, `?`, `[`, `{`, `(`, `!`, `+`, `@`, `#`, a backslash, ...) may
be special to the absent matcher, and a pattern that has one is outside the model. -/
def plainChar (c : Char) : Bool :=
  c.isAlphanum || c == '.' || c == '-' || c == '_'

/-- Modelled from the spec: token list of a pattern part, `none` when the part is outside the
modelled fragment. -/
def tokens : List Char → Option (List GlobTok)
  | [] => some []
  | c :: cs =>
    if c == '*' then (tokens cs).map fun ts => GlobTok.star :: ts
    else if plainChar c then (tokens cs).map fun ts => GlobTok.lit c :: ts
    else none

/-- The characters of a token list that has no `*`. -/
def literalChars : List GlobTok → List Char
  | [] => []
  | GlobTok.lit c :: ts => c :: literalChars ts
  | GlobTok.star :: ts => literalChars ts

/-- Whether a token is `*`. -/
def GlobTok.isStar : GlobTok → Bool
  | GlobTok.star => true
  | GlobTok.lit _ => false

/-- Modelled from the spec: parse of a one-part pattern by the absent matcher. The empty
pattern and the part `**` (which matches across directories) are outside the model. -/
def parse (pattern : List Char) : Option Part :=
  if pattern = [] ∨ pattern = ['*', '*'] then none
  else (tokens pattern).map fun ts =>
    if ts.any GlobTok.isStar then Part.regexp ts else Part.literal (literalChars ts)

/-- Modelled from the spec: `*` followed by the rest of the expression `k`: `*` takes a
(shortest) run of characters other than `/`. -/
def starMatch (k : List Char → Bool) : List Char → Bool
  | [] => k []
  | c :: cs => k (c :: cs) || (c != '/' && starMatch k cs)

/-- Modelled from the spec: anchored match of a token list against a whole path segment. -/
def globMatch : List GlobTok → List Char → Bool
  | [], cs => cs.isEmpty
  | GlobTok.lit c :: ts, cs =>
    match cs with
    | [] => false
    | d :: ds => c == d && globMatch ts ds
  | GlobTok.star :: ts, cs => starMatch (globMatch ts) cs

/-- Modelled from the spec: the line terminators, which the regular expression's `.` does not
match. -/
def isLineTerminator (c : Char) : Bool :=
  c == '\n' || c == '\r' || c.toNat == 0x2028 || c.toNat == 0x2029

/-- Modelled from the spec: the guards the absent matcher puts before the regular expression of a
part with `*`: the segment is not empty and does not begin with a line terminator, and, when
the part begins with `*`, the segment is neither `.` nor `..` (dot files are matched). -/
def regexpGuard (toks : List GlobTok) (seg : List Char) : Bool :=
  (match seg with
    | [] => false
    | c :: _ => !isLineTerminator c) &&
  (match toks with
    | GlobTok.star :: _ => seg != ['.'] && seg != ['.', '.']
    | _ => true)

/-- Modelled from the spec: match of one parsed part against one path segment. -/
def matchPart : Part → List Char → Bool
  | Part.literal s, seg => seg == s
  | Part.regexp toks, seg => regexpGuard toks seg && globMatch toks seg

/-- The `/`-separated segments of a path. -/
def segments : List Char → List (List Char)
  | [] => [[]]
  | c :: cs =>
    if c == '/' then [] :: segments cs
    else
      match segments cs with
      | [] => [[c]]
      | s :: ss => (c :: s) :: ss

/-- The base name of a path: its last non-empty segment, and the empty string when it has none. -/
def basename (path : List Char) : List Char :=
  ((segments path).reverse.find? fun s => s != []).getD []

/-- Modelled from the spec: match of a slash-free pattern against a file path by the absent
matcher, which compares such a pattern with the base name of the path; `none` when the pattern
is outside the modelled fragment. -/
def minimatch (pattern : String) (path : List Char) : Option Bool :=
  (parse pattern.toList).map fun part => matchPart part (basename path)

/-- The `files` patterns of an override record. -/
def filesOf (override : JsValue) : Option (List String) :=
  (override.get? "files").bind asStrings?

/-- Modelled from the spec: whether an override record applies to the file at `relativePath` (its
path from the directory of the configuration file): some pattern of `files` matches. `none`
when the record is outside the model: it has `excludedFiles`, no pattern, or a pattern
outside the fragment. -/
def overrideTest (override : JsValue) (relativePath : List Char) : Option Bool :=
  if override.has "excludedFiles" then none
  else
    (filesOf override).bind fun files =>
      if files.isEmpty then none
      else (files.mapM fun pattern => minimatch pattern relativePath).map fun hits => hits.any id

/-- The override record is known to apply to the file at `path`. -/
def selects (override : JsValue) (path : String) : Bool :=
  overrideTest override path.toList == some true

/-- The tokens of the pattern `*.ts`. -/
def tsTokens : List GlobTok :=
  [GlobTok.star, GlobTok.lit '.', GlobTok.lit 't', GlobTok.lit 's']

/-- The rule names and severities of an override record, when its `rules` is a mapping from
names to strings. -/
def rulesOf (override : JsValue) : Option (List (String × String)) :=
  (override.get? "rules").bind asStringMap?

/-- The `extends` list of a configuration or override record, when it is a list of strings. -/
def extendsOf (block : JsValue) : Option (List String) :=
  (block.get? "extends").bind asStrings?

/-- The rule severities the claim on schema validity names. -/
def severities : List String :=
  ["off", "warn", "error"]

/-- The setting names the claim on schema validity allows in an override record. -/
def overrideKeys : List String :=
  ["files", "env", "parser", "extends", "rules"]

/-- The rule names of the `rules` mapping of a configuration or override record; none when it
has no `rules`. -/
def ruleNames (block : JsValue) : List String :=
  ((block.get? "rules").map keys).getD []

/-!
## Theorems
-/

theorem overrideTest_override1 (p : List Char) :
    overrideTest override1 p = some (matchPart (Part.regexp tsTokens) (basename p)) := by
  have h : overrideTest override1 p
      = some (matchPart (Part.regexp tsTokens) (basename p) || false) := rfl
  rw [h, Bool.or_false]

theorem overrideTest_override0 (p : List Char) :
    overrideTest override0 p = some (matchPart (Part.literal ".eslintrc.js".toList) (basename p)) := by
  have h : overrideTest override0 p
      = some (matchPart (Part.literal ".eslintrc.js".toList) (basename p) || false) := rfl
  rw [h, Bool.or_false]

theorem starMatch_suffix (k : List Char → Bool) (cs : List Char) (h : starMatch k cs = true) :
    ∃ suf, suf <:+ cs ∧ k suf = true := by
  induction cs with
  | nil => exact ⟨[], List.suffix_refl _, h⟩
  | cons c cs ih =>
    simp only [starMatch, Bool.or_eq_true, Bool.and_eq_true] at h
    rcases h with h | ⟨_, h⟩
    · exact ⟨c :: cs, List.suffix_refl _, h⟩
    · obtain ⟨suf, hs, hk⟩ := ih h
      exact ⟨suf, hs.trans (List.suffix_cons c cs), hk⟩

theorem globMatch_lits (l seg : List Char) :
    globMatch (l.map GlobTok.lit) seg = true ↔ seg = l := by
  induction l generalizing seg with
  | nil => cases seg <;> simp [globMatch]
  | cons c l ih =>
    cases seg with
    | nil => simp [globMatch]
    | cons d ds =>
      simp only [List.map_cons, globMatch, Bool.and_eq_true, beq_iff_eq, ih, List.cons.injEq]
      constructor
      · rintro ⟨rfl, rfl⟩; exact ⟨rfl, rfl⟩
      · rintro ⟨rfl, rfl⟩; exact ⟨rfl, rfl⟩

theorem globMatch_tsTokens (seg : List Char) (h : globMatch tsTokens seg = true) :
    ".ts".toList <:+ seg := by
  have ht : tsTokens = GlobTok.star :: (".ts".toList.map GlobTok.lit) := by decide
  rw [ht] at h
  obtain ⟨suf, hs, hk⟩ := starMatch_suffix _ seg h
  rw [globMatch_lits] at hk
  exact hk ▸ hs

theorem overridesOf_module_exports : overridesOf module_exports = [override0, override1] := rfl

theorem selects_override0_iff (path : String) :
    selects override0 path = true ↔ basename path.toList = ".eslintrc.js".toList := by
  simp [selects, overrideTest_override0, matchPart]

theorem selects_override1_suffix (path : String) (h : selects override1 path = true) :
    ".ts".toList <:+ basename path.toList := by
  simp only [selects, overrideTest_override1, matchPart, beq_iff_eq, Option.some.injEq,
    Bool.and_eq_true] at h
  exact globMatch_tsTokens _ h.2

theorem filter_eq_of_perm_of_length_le_one {α : Type} (p : α → Bool) {l l' : List α}
    (hp : l'.Perm l) (h : (l.filter p).length ≤ 1) : l'.filter p = l.filter p := by
  have hp' := hp.filter p
  match hl : l.filter p, h with
  | [], _ => rw [hl] at hp'; exact hp'.eq_nil
  | [a], _ => rw [hl] at hp'; exact List.perm_singleton.mp hp'

/-- C1: the rules of the `*.ts` override apply only to TypeScript source files. An override
record of the exported configuration that carries `rules`, `parser` or `extends` is the
second record, whose `files` is `["*.ts"]`; whether it applies to a path is decided for
every path; and every path it applies to has a base name ending in `.ts`. -/
theorem ts_override_applies_only_to_ts_files (o : JsValue) (path : String)
    (ho : o ∈ overridesOf module_exports)
    (hc : o.has "rules" = true ∨ o.has "parser" = true ∨ o.has "extends" = true) :
    o = override1 ∧ filesOf o = some ["*.ts"] ∧
      (∃ b, overrideTest o path.toList = some b) ∧
      (selects o path = true → ".ts".toList <:+ basename path.toList) := by
  rw [overridesOf_module_exports] at ho
  simp only [List.mem_cons, List.mem_singleton, List.not_mem_nil, or_false] at ho
  rcases ho with rfl | rfl
  · exact absurd hc (by decide)
  · exact ⟨rfl, rfl, ⟨_, overrideTest_override1 _⟩, selects_override1_suffix path⟩

/-- Witness of C1: the second override record carries `rules`, applies to `src/main.ts`, and
the base name `main.ts` ends in `.ts`. -/
theorem ts_override_applies_only_to_ts_files_witness :
    override1 ∈ overridesOf module_exports ∧ override1.has "rules" = true ∧
      selects override1 "src/main.ts" = true ∧
      basename "src/main.ts".toList = "main.ts".toList ∧
      ".ts".toList <:+ basename "src/main.ts".toList :=
  have ho : override1 ∈ overridesOf module_exports := by
    rw [overridesOf_module_exports]; exact List.mem_cons_of_mem _ (List.mem_singleton_self _)
  ⟨ho, by decide, by decide, by decide,
    (ts_override_applies_only_to_ts_files override1 "src/main.ts" ho
      (Or.inl (by decide))).2.2.2 (by decide)⟩

/-- C2, counterexample: the override record with `env` applies to `docs/.eslintrc.js`, a path
other than that of the configuration file `.eslintrc.js`. -/
theorem env_override_selects_nested_file :
    selects override0 "docs/.eslintrc.js" = true ∧ "docs/.eslintrc.js" ≠ ".eslintrc.js" ∧
      ¬ ∀ path : String, selects override0 path = true → path = ".eslintrc.js" :=
  ⟨by decide, by decide, fun h => absurd (h "docs/.eslintrc.js" (by decide)) (by decide)⟩

/-- C2, amended: exactly one override record carries `env`, that mapping is `{node: true}`, the
record's `files` is `[".eslintrc.js"]`, the top level sets no `env`, whether the record applies
to a path is decided for every path, and every path it applies to has the base name
`.eslintrc.js`. -/
theorem env_node_applies_only_to_eslintrc_basename :
    (overridesOf module_exports).filter (fun o => o.has "env") = [override0] ∧
      override0.get? "env" = some (obj [("node", bool true)]) ∧
      filesOf override0 = some [".eslintrc.js"] ∧
      module_exports.has "env" = false ∧
      (∀ path : String, ∃ b, overrideTest override0 path.toList = some b) ∧
      (∀ path : String, selects override0 path = true →
        basename path.toList = ".eslintrc.js".toList) :=
  ⟨rfl, rfl, rfl, rfl, fun _ => ⟨_, overrideTest_override0 _⟩,
    fun path => (selects_override0_iff path).mp⟩

/-- Witness of C2, amended: the record applies to the configuration file itself, whose base
name is `.eslintrc.js`. -/
theorem env_node_applies_only_to_eslintrc_basename_witness :
    selects override0 ".eslintrc.js" = true ∧
      basename ".eslintrc.js".toList = ".eslintrc.js".toList :=
  ⟨by decide, env_node_applies_only_to_eslintrc_basename.2.2.2.2.2 ".eslintrc.js" (by decide)⟩

/-- C3: the `rules` mapping of the `*.ts` override has exactly four entries, the four rule
names of the claim, pairwise distinct, each mapped to the severity `"off"`. -/
theorem ts_override_disables_four_rules :
    filesOf override1 = some ["*.ts"] ∧
      rulesOf override1 = some [
        ("@typescript-eslint/no-unused-vars", "off"),
        ("@typescript-eslint/no-empty-function", "off"),
        ("@typescript-eslint/ban-types", "off"),
        ("@typescript-eslint/no-explicit-any", "off")] ∧
      ((override1.get? "rules").map keys).getD [] = [
        "@typescript-eslint/no-unused-vars",
        "@typescript-eslint/no-empty-function",
        "@typescript-eslint/ban-types",
        "@typescript-eslint/no-explicit-any"] ∧
      (((override1.get? "rules").map keys).getD []).length = 4 ∧
      (((override1.get? "rules").map keys).getD []).Nodup ∧
      ((rulesOf override1).getD []).all (fun kv => kv.2 == "off") = true := by
  refine ⟨rfl, rfl, rfl, rfl, ?_, ?_⟩ <;> decide

/-- C4: the top-level `extends` is the ordered list of `"eslint:recommended"` then
`"plugin:markdown/recommended"`, and `root` is the boolean `true`. -/
theorem top_level_extends_and_root :
    module_exports.get? "extends"
        = some (arr [str "eslint:recommended", str "plugin:markdown/recommended"]) ∧
      extendsOf module_exports = some ["eslint:recommended", "plugin:markdown/recommended"] ∧
      module_exports.get? "root" = some (bool true) :=
  ⟨rfl, rfl, rfl⟩

/-- C5: the exported configuration is well formed: its setting names are exactly `root`,
`extends` and `overrides`; `root` is a boolean; `extends` is a list of strings; `overrides` is
a list, and each of its records is an object with a non-empty `files` list of strings, with no
key other than `files`, `env`, `parser`, `extends` and `rules`, and with every value of `rules`,
when it has one, among `"off"`, `"warn"` and `"error"`. -/
theorem config_is_well_formed :
    module_exports.keys = ["root", "extends", "overrides"] ∧
      (∃ b, module_exports.get? "root" = some (bool b)) ∧
      (∃ presets, extendsOf module_exports = some presets) ∧
      (∃ records, module_exports.get? "overrides" = some (arr records)) ∧
      ∀ o ∈ overridesOf module_exports,
        (∃ props, o = obj props) ∧
        (∃ files, filesOf o = some files ∧ files ≠ []) ∧
        (∀ key ∈ o.keys, key ∈ overrideKeys) ∧
        (∀ rules, o.get? "rules" = some rules →
          ∃ entries, rules.asStringMap? = some entries ∧
            ∀ entry ∈ entries, entry.2 ∈ severities) := by
  refine ⟨rfl, ⟨_, rfl⟩, ⟨_, rfl⟩, ⟨_, rfl⟩, ?_⟩
  intro o ho
  rw [overridesOf_module_exports] at ho
  simp only [List.mem_cons, List.mem_singleton, List.not_mem_nil, or_false] at ho
  rcases ho with rfl | rfl
  · refine ⟨⟨_, rfl⟩, ⟨_, rfl, by decide⟩, by decide, ?_⟩
    intro rules h
    exact absurd h (by intro h'; cases h')
  · refine ⟨⟨_, rfl⟩, ⟨_, rfl, by decide⟩, by decide, ?_⟩
    intro rules h
    have hr : override1.get? "rules" = some (obj [
        ("@typescript-eslint/no-unused-vars", str "off"),
        ("@typescript-eslint/no-empty-function", str "off"),
        ("@typescript-eslint/ban-types", str "off"),
        ("@typescript-eslint/no-explicit-any", str "off")]) := rfl
    rw [hr] at h
    cases h
    exact ⟨_, rfl, by decide⟩

/-- Witness of C5: the second override record is an object whose `files` is `["*.ts"]`, whose
keys are all allowed, and whose four `rules` values are all `"off"`. -/
theorem config_is_well_formed_witness :
    override1 ∈ overridesOf module_exports ∧
      (∃ props, override1 = obj props) ∧
      (∃ files, filesOf override1 = some files ∧ files ≠ []) ∧
      (∀ key ∈ override1.keys, key ∈ overrideKeys) ∧
      (∀ rules, override1.get? "rules" = some rules →
        ∃ entries, rules.asStringMap? = some entries ∧
          ∀ entry ∈ entries, entry.2 ∈ severities) :=
  have ho : override1 ∈ overridesOf module_exports := by
    rw [overridesOf_module_exports]; exact List.mem_cons_of_mem _ (List.mem_singleton_self _)
  ⟨ho, config_is_well_formed.2.2.2.2 override1 ho⟩

/-- C6: the `*.ts` override is the only override record that sets `parser`, its parser is
`"@typescript-eslint/parser"`, its `extends` is the one-element list
`["plugin:@typescript-eslint/recommended"]`, and the top level sets no `parser`. -/
theorem ts_override_parser_and_preset :
    (overridesOf module_exports).filter (fun o => o.has "parser") = [override1] ∧
      filesOf override1 = some ["*.ts"] ∧
      override1.get? "parser" = some (str "@typescript-eslint/parser") ∧
      override1.get? "extends" = some (arr [str "plugin:@typescript-eslint/recommended"]) ∧
      extendsOf override1 = some ["plugin:@typescript-eslint/recommended"] ∧
      module_exports.has "parser" = false :=
  ⟨rfl, rfl, rfl, rfl, rfl, rfl⟩

/-- C7: every rule name in a `rules` mapping of the configuration, at the top level or in an
override record, begins with `@typescript-eslint/`, and the block that holds it extends a
preset beginning with `plugin:@typescript-eslint/`. -/
theorem rule_names_belong_to_loaded_plugin (block : JsValue) (name : String)
    (hb : block ∈ module_exports :: overridesOf module_exports)
    (hn : name ∈ ruleNames block) :
    "@typescript-eslint/".toList <+: name.toList ∧
      ∃ preset ∈ (extendsOf block).getD [],
        "plugin:@typescript-eslint/".toList <+: preset.toList := by
  rw [overridesOf_module_exports] at hb
  simp only [List.mem_cons, List.mem_singleton, List.not_mem_nil, or_false] at hb
  rcases hb with rfl | rfl | rfl
  · exact absurd hn (by simp [ruleNames, module_exports, get?, List.lookup])
  · exact absurd hn (by simp [ruleNames, override0, get?, List.lookup])
  · have hnames : ruleNames override1 = [
        "@typescript-eslint/no-unused-vars",
        "@typescript-eslint/no-empty-function",
        "@typescript-eslint/ban-types",
        "@typescript-eslint/no-explicit-any"] := rfl
    rw [hnames] at hn
    simp only [List.mem_cons, List.mem_singleton, List.not_mem_nil, or_false] at hn
    refine ⟨?_, "plugin:@typescript-eslint/recommended", by decide, by decide⟩
    rcases hn with rfl | rfl | rfl | rfl <;> decide

/-- Witness of C7: the rule `@typescript-eslint/ban-types` of the second override record. -/
theorem rule_names_belong_to_loaded_plugin_witness :
    override1 ∈ module_exports :: overridesOf module_exports ∧
      "@typescript-eslint/ban-types" ∈ ruleNames override1 ∧
      "@typescript-eslint/".toList <+: "@typescript-eslint/ban-types".toList ∧
      ∃ preset ∈ (extendsOf override1).getD [],
        "plugin:@typescript-eslint/".toList <+: preset.toList :=
  have hb : override1 ∈ module_exports :: overridesOf module_exports := by
    rw [overridesOf_module_exports]
    exact List.mem_cons_of_mem _ (List.mem_cons_of_mem _ (List.mem_singleton_self _))
  have hn : "@typescript-eslint/ban-types" ∈ ruleNames override1 := by decide
  ⟨hb, hn, rule_names_belong_to_loaded_plugin override1 "@typescript-eslint/ban-types" hb hn⟩

/-- C8: no path is selected both by the record with pattern `.eslintrc.js` and by the record
with pattern `*.ts`, so the override records that apply to a path, in order, are the same for
every reordering of `overrides`. -/
theorem overrides_select_disjoint_files (path : String) :
    filesOf override0 = some [".eslintrc.js"] ∧ filesOf override1 = some ["*.ts"] ∧
      ¬ (selects override0 path = true ∧ selects override1 path = true) ∧
      ¬ (basename path.toList = ".eslintrc.js".toList ∧ ".ts".toList <:+ basename path.toList) ∧
      ∀ reordered : List JsValue, reordered.Perm (overridesOf module_exports) →
        reordered.filter (fun o => selects o path)
          = (overridesOf module_exports).filter (fun o => selects o path) := by
  have hbase : ¬ (basename path.toList = ".eslintrc.js".toList ∧
      ".ts".toList <:+ basename path.toList) := by
    rintro ⟨h0, h1⟩
    rw [h0] at h1
    exact absurd h1 (by decide)
  have hdisj : ¬ (selects override0 path = true ∧ selects override1 path = true) :=
    fun h => hbase ⟨(selects_override0_iff path).mp h.1, selects_override1_suffix path h.2⟩
  refine ⟨rfl, rfl, hdisj, hbase, ?_⟩
  intro reordered hp
  apply filter_eq_of_perm_of_length_le_one _ hp
  rw [overridesOf_module_exports]
  cases h0 : selects override0 path <;> cases h1 : selects override1 path
  · simp [List.filter, h0, h1]
  · simp [List.filter, h0, h1]
  · simp [List.filter, h0, h1]
  · exact absurd ⟨h0, h1⟩ hdisj

/-- Witness of C8: for `src/main.ts` only the `*.ts` record applies, in the source order of
`overrides` and in the swapped order. -/
theorem overrides_select_disjoint_files_witness :
    [override1, override0].Perm (overridesOf module_exports) ∧
      selects override0 "src/main.ts" = false ∧ selects override1 "src/main.ts" = true ∧
      [override1, override0].filter (fun o => selects o "src/main.ts")
        = (overridesOf module_exports).filter (fun o => selects o "src/main.ts") :=
  have hp : [override1, override0].Perm (overridesOf module_exports) := by
    rw [overridesOf_module_exports]; exact List.Perm.swap _ _ _
  ⟨hp, by decide, by decide,
    (overrides_select_disjoint_files "src/main.ts").2.2.2.2 [override1, override0] hp⟩

end EslintRc
